import Mathlib

/-
Verification of the ruleset engine (src/runtime/ruleset.c) and the TCP input
module facade (src/plugins/imtcp/imtcp.c) of this rsyslog snapshot.

The C code is embedded shallowly:

* A batch element (batch.h is external to the sources; its shape follows the
  data-model section of the specification) carries the user message pointer
  pUsrp, a processing state, and the ruleset reference that
  batchElemGetRuleset reads through the message pointer.  The dispatch code
  only ever distinguishes BATCH_STATE_DISC from the other states, so the
  state type has two constructors.
* processBatchMultiRuleset (ruleset.c lines 161-206) is a do/while loop whose
  every iteration marks at least one non-discarded element as discarded; it
  is embedded as a structurally recursive function multiLoopF on an explicit
  fuel argument, with the public wrapper multiLoop supplying fuel
  countReady elems + 1, which every theorem below shows is sufficient.  The
  function returns the list of (currRuleset, sub-batch elements) pairs, one
  per processBatch invocation the C code makes, together with the final
  contents of the original batch.
* processBatch (lines 214-235) is split into the single-ruleset fast path
  and the multi-ruleset fallback.  rule.ProcessBatch lives in rule.c, which
  is external, so the fast path returns the dispatch trace: the list of
  (rule, batch) invocations made through llExecFunc, in rule insertion
  order, each receiving the same batch object.
* The ruleset registry (rsconf rulesets member) is a list of key/object
  pairs with current and default pointers represented as list indices.
  llFind uses strcasecmp, embedded as comparison of ASCII-lowercased names.
* External collaborators (parser.FindParser, createMainQueue, the tcpsrv
  class) are modelled from the specification where noted.
-/

set_option linter.unusedSectionVars false

namespace RSyslog

/-- Batch element state.  batch.h is not part of the sources; the data model
section of the specification gives state as READY or DISCARDED, and the
dispatch code only tests equality with BATCH_STATE_DISC. -/
inductive BState where
  | rdy : BState
  | disc : BState
deriving DecidableEq, Repr

/-- One element of a batch: the user message pointer pUsrp, its state, and
the (possibly null) ruleset reference of the message, which is what
batchElemGetRuleset reads through pUsrp.  Copying pUsrp therefore also
carries the ruleset reference, which is why processBatchMultiRuleset only
copies pUsrp and state. -/
structure BElem (α ρ : Type) where
  pUsrp : α
  state : BState
  pRuleset : Option ρ
deriving DecidableEq, Repr

/-- A batch: the element array plus the bSingleRuleset flag, per the data
model of the specification (batch.h is external).  The shutdown flag and
capacity are not observed by any claim and are omitted. -/
structure Batch (α ρ : Type) where
  pElem : List (BElem α ρ)
  bSingleRuleset : Bool
deriving DecidableEq, Repr

/-- The test pBatch->pElem[i].state == BATCH_STATE_DISC used by the
partitioning loop (lines 175 and the marking at line 192). -/
def isDisc {α ρ : Type} (e : BElem α ρ) : Bool :=
  e.state == BState.disc

/-- One partitioning pass, copy side (lines 185-190): of the elements from
iStart onward, those whose ruleset equals currRuleset are copied (pUsrp and
state, hence the whole element here) into the temporary batch, in order. -/
def passSub {α ρ : Type} [DecidableEq ρ] (curr : Option ρ) (l : List (BElem α ρ)) :
    List (BElem α ρ) :=
  l.filter (fun e => e.pRuleset == curr)

/-- The per-element marking of line 192: an element whose ruleset equals
currRuleset is set to BATCH_STATE_DISC, any other is untouched. -/
def markElem {α ρ : Type} [DecidableEq ρ] (curr : Option ρ) (e : BElem α ρ) :
    BElem α ρ :=
  if e.pRuleset == curr then { e with state := BState.disc } else e

/-- One partitioning pass, marking side (line 192): every element from
iStart onward whose ruleset equals currRuleset is set to BATCH_STATE_DISC in
the original batch; the others are untouched. -/
def passMark {α ρ : Type} [DecidableEq ρ] (curr : Option ρ) (l : List (BElem α ρ)) :
    List (BElem α ρ) :=
  l.map (markElem curr)

/-- The bHaveUnprocessed flag (line 194): set when some element from iStart
onward has a ruleset different from currRuleset, regardless of its state. -/
def passHave {α ρ : Type} [DecidableEq ρ] (curr : Option ρ) (l : List (BElem α ρ)) :
    Bool :=
  l.any (fun e => !(e.pRuleset == curr))

/-- Number of elements not in state BATCH_STATE_DISC; the termination
measure of the do/while loop of processBatchMultiRuleset. -/
def countReady {α ρ : Type} (l : List (BElem α ρ)) : Nat :=
  (l.filter (fun e => !(isDisc e))).length

/-- The do/while loop of processBatchMultiRuleset (lines 172-202), with an
explicit fuel argument making the recursion structural.  Each iteration
first searches for the first non-discarded element (the iStart scan of line
175: elems.dropWhile isDisc drops exactly the elements before iStart) and
stops when none remains (line 177).  Otherwise currRuleset is the ruleset of
the element at iStart (line 183), the pass copies and marks the elements
from iStart onward (lines 185-196), records the temporary batch handed to
processBatch (line 200), and loops while bHaveUnprocessed is set.  The
result is the list of (currRuleset, copied elements) pairs in invocation
order together with the final element array of the original batch. -/
def multiLoopF {α ρ : Type} [DecidableEq ρ] :
    Nat → List (BElem α ρ) → List (Option ρ × List (BElem α ρ)) × List (BElem α ρ)
  | 0, elems => ([], elems)
  | fuel + 1, elems =>
    match elems.dropWhile isDisc with
    | [] => ([], elems)
    | e0 :: tl =>
      if passHave e0.pRuleset (e0 :: tl) then
        ((e0.pRuleset, passSub e0.pRuleset (e0 :: tl))
            :: (multiLoopF fuel (elems.takeWhile isDisc ++ passMark e0.pRuleset (e0 :: tl))).1,
         (multiLoopF fuel (elems.takeWhile isDisc ++ passMark e0.pRuleset (e0 :: tl))).2)
      else
        ([(e0.pRuleset, passSub e0.pRuleset (e0 :: tl))],
         elems.takeWhile isDisc ++ passMark e0.pRuleset (e0 :: tl))

/-- The partitioning loop at its actual fuel: every iteration of the C loop
discards at least one previously non-discarded element, so
countReady elems + 1 iterations always suffice (proved by every lemma below
requiring only countReady elems < fuel). -/
def multiLoop {α ρ : Type} [DecidableEq ρ] (elems : List (BElem α ρ)) :
    List (Option ρ × List (BElem α ρ)) × List (BElem α ρ) :=
  multiLoopF (countReady elems + 1) elems

/-- processBatchMultiRuleset (lines 161-206): partitions the batch and
returns, in order, the temporary single-ruleset batches handed to
processBatch (batchSetSingleRuleset(&snglRuleBatch, 1) at line 198), plus
the original batch as it is left on return. -/
def processBatchMultiRuleset {α ρ : Type} [DecidableEq ρ] (pBatch : Batch α ρ) :
    List (Batch α ρ) × Batch α ρ :=
  ((multiLoop pBatch.pElem).1.map (fun s => { pElem := s.2, bSingleRuleset := true }),
   { pBatch with pElem := (multiLoop pBatch.pElem).2 })

/-- Modelled from the spec: batch.h is not part of the sources.  The
specification says the single-ruleset path fetches the ruleset pointer of
the batch, null when absent; messages carry the ruleset reference, and the
multi-ruleset partitioner reads per-element rulesets through the copied
message pointers, so the ruleset pointer of a batch is the ruleset of its
first element, null for an empty batch. -/
def batchGetRuleset {α ρ : Type} (pBatch : Batch α ρ) : Option ρ :=
  match pBatch.pElem with
  | [] => none
  | e :: _ => e.pRuleset

/-- The single-ruleset fast path of processBatch (lines 222-227): fetch the
ruleset of the batch, substitute the default ruleset of the registry when it
is null (line 225), then hand the whole batch to each rule of that ruleset
in insertion order via llExecFunc over llRules (line 227, helper
processBatchDoRules at lines 140-148; rule.ProcessBatch itself is external).
The result is the invocation trace; none models the ISOBJ_TYPE_assert at
line 226 firing on a null ruleset (null batch ruleset and null default). -/
def processBatchSinglePath {α ρ R : Type} (pDflt : Option ρ) (rulesOf : ρ → List R)
    (pBatch : Batch α ρ) : Option (List (R × Batch α ρ)) :=
  match (match batchGetRuleset pBatch with
         | none => pDflt
         | some r => some r) with
  | none => none
  | some pThis => some ((rulesOf pThis).map (fun r => (r, pBatch)))

/-- processBatch (lines 214-235).  On a single-ruleset batch it takes the
fast path; otherwise it runs processBatchMultiRuleset, which hands every
temporary batch back to processBatch.  Those temporary batches all have
bSingleRuleset set, so that inner call takes the fast path; the mutual
recursion of the C code therefore bottoms out after one level and is
inlined here.  The C loop ignores the return value of the inner
processBatch call (line 200), modelled by getD []. -/
def processBatch {α ρ R : Type} [DecidableEq ρ] (pDflt : Option ρ) (rulesOf : ρ → List R)
    (pBatch : Batch α ρ) : Option (List (R × Batch α ρ)) :=
  if pBatch.bSingleRuleset then
    processBatchSinglePath pDflt rulesOf pBatch
  else
    some (((processBatchMultiRuleset pBatch).1.map
      (fun sb => (processBatchSinglePath pDflt rulesOf sb).getD [])).flatten)

/-- Number of copies of the message pointer x in an element list. -/
def usrpCount {α ρ : Type} [DecidableEq α] (x : α) (l : List (BElem α ρ)) : Nat :=
  l.countP (fun e => e.pUsrp == x)

/-- Number of copies of the message pointer x across the recorded passes of
the partitioning loop. -/
def tagDispatchCount {α ρ : Type} [DecidableEq α] (x : α)
    (subs : List (Option ρ × List (BElem α ρ))) : Nat :=
  (subs.map (fun s => usrpCount x s.2)).sum

/-- Number of copies of the message pointer x across a list of batches (the
sub-batches handed to processBatch). -/
def dispatchCount {α ρ : Type} [DecidableEq α] (x : α) (bs : List (Batch α ρ)) : Nat :=
  (bs.map (fun sb => usrpCount x sb.pElem)).sum

/-- Number of occurrences of the message pointer x among the elements that
are not discarded. -/
def readyUsrpCount {α ρ : Type} [DecidableEq α] (x : α) (l : List (BElem α ρ)) : Nat :=
  l.countP (fun e => e.pUsrp == x && !(isDisc e))

/-- Rulesets of the elements that are not discarded, in batch order. -/
def readyRulesets {α ρ : Type} (l : List (BElem α ρ)) : List (Option ρ) :=
  (l.filter (fun e => !(isDisc e))).map (fun e => e.pRuleset)

/-- Helper for firstOccs, carrying the set of values already seen. -/
def firstOccsAux {β : Type} [DecidableEq β] : List β → List β → List β
  | _, [] => []
  | seen, r :: rs =>
    if r ∈ seen then firstOccsAux seen rs else r :: firstOccsAux (r :: seen) rs

/-- The distinct values of a list in order of first occurrence. -/
def firstOccs {β : Type} [DecidableEq β] (l : List β) : List β :=
  firstOccsAux [] l

/- ----- the ruleset registry (ruleset.c, registry side) ----- -/

/-- Return codes distinguished by the embedded operations, named after the
RS_RET_* constants of the sources.  assertFail stands for a C assert or
ISOBJ_TYPE_assert firing, which cannot happen on the states the theorems
quantify over. -/
inductive RsRet where
  | ok : RsRet
  | notFound : RsRet
  | noCurrRuleset : RsRet
  | rulesQueueExists : RsRet
  | parserNotFound : RsRet
  | noListeners : RsRet
  | noRun : RsRet
  | assertFail : RsRet
deriving DecidableEq, Repr

/-- A rule: its ordered action list (rule.c is external; addRule only reads
the action count through llGetNumElts). -/
structure Rule (A : Type) where
  llActList : List A
deriving DecidableEq, Repr

/-- A ruleset object: name, rule list, optional private parser list (null
means inherit the defaults) and optional private queue (null means share the
main queue). -/
structure RulesetData (A P Q : Type) where
  pszName : String
  llRules : List (Rule A)
  pParserLst : Option (List P)
  pQueue : Option Q
deriving DecidableEq, Repr

/-- The registry part of rsconf: the key/object list llRulesets (the key is
the duplicated name, compare rulesetConstructFinalize line 413) plus the
current and default pointers, represented as indices into the list. -/
structure RsConf (A P Q : Type) where
  llRulesets : List (String × RulesetData A P Q)
  pCurr : Option Nat
  pDflt : Option Nat
deriving DecidableEq, Repr

/-- Per-character lowercasing, the normal form under which strcasecmp
compares (tolower applied to every character). -/
def lowerName (s : String) : String :=
  ⟨s.data.map Char.toLower⟩

/-- Key comparison of the registry list: llInit is given strcasecmp (line
456), so lookup is case-insensitive. -/
def strcaseEq (a b : String) : Bool :=
  lowerName a == lowerName b

/-- llFind over the registry list: index of the first key matching under
strcasecmp, none when absent (linked list class external; first-match
scan). -/
def llFind {A P Q : Type} : List (String × RulesetData A P Q) → String → Option Nat
  | [], _ => none
  | kv :: rest, name =>
    if strcaseEq kv.1 name then some 0 else (llFind rest name).map (· + 1)

/-- rulesetGetRuleset (lines 327-338): find the ruleset with the given name. -/
def rulesetGetRuleset {A P Q : Type} (conf : RsConf A P Q) (pszName : String) :
    Option Nat :=
  llFind conf.llRulesets pszName

/-- SetDefaultRuleset (lines 343-356): on lookup failure the error
propagates through CHKiRet and nothing is changed; on success only pDflt is
set. -/
def SetDefaultRuleset {A P Q : Type} (conf : RsConf A P Q) (pszName : String) :
    RsRet × RsConf A P Q :=
  match rulesetGetRuleset conf pszName with
  | none => (RsRet.notFound, conf)
  | some i => (RsRet.ok, { conf with pDflt := some i })

/-- SetCurrRuleset (lines 361-374): same shape as SetDefaultRuleset, acting
on pCurr. -/
def SetCurrRuleset {A P Q : Type} (conf : RsConf A P Q) (pszName : String) :
    RsRet × RsConf A P Q :=
  match rulesetGetRuleset conf pszName with
  | none => (RsRet.notFound, conf)
  | some i => (RsRet.ok, { conf with pCurr := some i })

/-- addRule (lines 266-286): a rule whose action list is empty is warned
about (the Bool result records the errmsg.LogError call) and destructed, the
rule list untouched; otherwise the rule is appended to llRules. -/
def addRule {A P Q : Type} (pThis : RulesetData A P Q) (pRule : Rule A) :
    RulesetData A P Q × Bool :=
  if pRule.llActList.length = 0 then
    (pThis, true)
  else
    ({ pThis with llRules := pThis.llRules ++ [pRule] }, false)

/-- rulesetConstructFinalize (lines 402-425): append the ruleset (keyed by a
copy of its name) to llRulesets, make it the current ruleset, and make it
the default iff no default is set yet. -/
def rulesetConstructFinalize {A P Q : Type} (conf : RsConf A P Q)
    (pThis : RulesetData A P Q) : RsConf A P Q :=
  { llRulesets := conf.llRulesets ++ [(pThis.pszName, pThis)],
    pCurr := some conf.llRulesets.length,
    pDflt :=
      match conf.pDflt with
      | none => some conf.llRulesets.length
      | some d => some d }

/-- doRulesetCreateQueue (lines 512-539): reject with RS_RET_NO_CURR_RULESET
when no current ruleset is set, with RS_RET_RULES_QUEUE_EXISTS when the
current ruleset already owns a queue; return OK doing nothing when the
directive value is off; otherwise install the queue built by createMainQueue
(external, passed in as newQueue).  A dangling pCurr index cannot arise from
the embedded operations; that branch returns assertFail. -/
def doRulesetCreateQueue {A P Q : Type} (conf : RsConf A P Q) (pNewVal : Int)
    (newQueue : Q) : RsRet × RsConf A P Q :=
  match conf.pCurr with
  | none => (RsRet.noCurrRuleset, conf)
  | some i =>
    match conf.llRulesets[i]? with
    | none => (RsRet.assertFail, conf)
    | some kv =>
      if kv.2.pQueue.isSome then
        (RsRet.rulesQueueExists, conf)
      else if pNewVal = 0 then
        (RsRet.ok, conf)
      else
        (RsRet.ok,
         { conf with
             llRulesets :=
               conf.llRulesets.set i (kv.1, { kv.2 with pQueue := some newQueue }) })

/-- doRulesetAddParser (lines 556-583).  parser.FindParser is external and
is modelled from the spec as lookup among the registered parser names.  When
the parser is unknown the code logs with code RS_RET_PARSER_NOT_FOUND (line
567) but then executes ABORT_FINALIZE(RS_RET_NO_CURR_RULESET) (line 569), so
the returned code is noCurrRuleset while the logged code (third component)
is parserNotFound; the parser list is untouched.  On success
parser.AddParserToList (external; per the spec the first addition drops the
inherited defaults, further ones append) appends to the list of the current
ruleset.  The assert at line 562 requires pCurr to be set. -/
def doRulesetAddParser {A P Q : Type} [DecidableEq P] (conf : RsConf A P Q)
    (registeredParsers : List P) (pName : P) : RsRet × RsConf A P Q × List RsRet :=
  match conf.pCurr with
  | none => (RsRet.assertFail, conf, [])
  | some i =>
    match conf.llRulesets[i]? with
    | none => (RsRet.assertFail, conf, [])
    | some kv =>
      if pName ∈ registeredParsers then
        (RsRet.ok,
         { conf with
             llRulesets :=
               conf.llRulesets.set i
                 (kv.1, { kv.2 with pParserLst := some (kv.2.pParserLst.getD [] ++ [pName]) }) },
         [])
      else
        (RsRet.noCurrRuleset, conf, [RsRet.parserNotFound])

/- ----- the imtcp facade (imtcp.c) ----- -/

/-- One listener instance accumulated during config load (imtcp.c lines
103-110). -/
structure InstanceConf (ρ : Type) where
  pszBindPort : String
  pszBindRuleset : Option String
  pBindRuleset : Option ρ
  pszInputName : Option String
  bSuppOctetFram : Bool
deriving DecidableEq, Repr

/-- The module config: the instance list plus the module-level caps the
claims mention (lines 113-126; the remaining driver parameters are not
observed by any claim). -/
structure ModConf (ρ : Type) where
  root : List (InstanceConf ρ)
  iTCPSessMax : Int
  iTCPLstnMax : Int
deriving DecidableEq, Repr

/-- A configured listener of the TCP server, as set up by addListner:
tcpsrv.SetRuleset, tcpsrv.SetInputName (default label imtcp) and
tcpsrv.configureTCPListen (lines 278-281; the tcpsrv class is external and
is modelled from the facade section of the spec). -/
structure Listener (ρ : Type) where
  port : String
  bSuppOctetFram : Bool
  ruleset : Option ρ
  inputName : String
deriving DecidableEq, Repr

/-- The TCP server object: its listener set and whether
tcpsrv.ConstructFinalize has run (modelled from the spec; tcpsrv is
external). -/
structure TcpSrv (ρ : Type) where
  lstn : List (Listener ρ)
  finalized : Bool
deriving DecidableEq, Repr

/-- checkCnf (lines 334-345): with no listener instance defined, log and
return RS_RET_NO_LISTNERS; otherwise OK.  (std_checkRuleset only resolves
instance ruleset names and is not observed by the claims.) -/
def checkCnf {ρ : Type} (pModConf : ModConf ρ) : RsRet :=
  if pModConf.root.isEmpty then RsRet.noListeners else RsRet.ok

/-- addListner (lines 245-288): construct the module-global server on first
use, then register the listener parameters of the instance. -/
def addListner {ρ : Type} (srv : Option (TcpSrv ρ)) (inst : InstanceConf ρ) :
    TcpSrv ρ :=
  let s : TcpSrv ρ :=
    match srv with
    | none => { lstn := [], finalized := false }
    | some s0 => s0
  { s with lstn := s.lstn ++
      [{ port := inst.pszBindPort, bSuppOctetFram := inst.bSuppOctetFram,
         ruleset := inst.pBindRuleset,
         inputName := inst.pszInputName.getD "imtcp" }] }

/-- activateCnfPrePrivDrop (lines 348-359): run addListner for every
instance; abort with RS_RET_NO_RUN when no server was constructed, else
finalize the server.  pOurTcpsrv is the module-global server pointer, null
at module init. -/
def activateCnfPrePrivDrop {ρ : Type} (pModConf : ModConf ρ)
    (pOurTcpsrv : Option (TcpSrv ρ)) : RsRet × Option (TcpSrv ρ) :=
  match pModConf.root.foldl (fun s inst => some (addListner s inst)) pOurTcpsrv with
  | none => (RsRet.noRun, none)
  | some srv => (RsRet.ok, some { srv with finalized := true })

/- ----- concrete batches used by counterexample and witnesses ----- -/

/-- The five-element batch of the spec scenario: rulesets A, B, A, B, A with
A = 0 and B = 1, every element ready. -/
def exElems : List (BElem Nat Nat) :=
  [⟨0, BState.rdy, some 0⟩, ⟨1, BState.rdy, some 1⟩, ⟨2, BState.rdy, some 0⟩,
   ⟨3, BState.rdy, some 1⟩, ⟨4, BState.rdy, some 0⟩]

/-- The spec scenario batch, multi-ruleset. -/
def exBatch : Batch Nat Nat :=
  { pElem := exElems, bSingleRuleset := false }

/-- A batch whose first element (ruleset A = 0) is already discarded at
entry while a later element of ruleset B = 1 is ready: the first ruleset
encountered in the batch is A, but the first pass of the partitioning loop
serves B. -/
def cexElems : List (BElem Nat Nat) :=
  [⟨0, BState.disc, some 0⟩, ⟨1, BState.rdy, some 1⟩, ⟨2, BState.rdy, some 0⟩]

/-- The counterexample batch, multi-ruleset. -/
def cexBatch : Batch Nat Nat :=
  { pElem := cexElems, bSingleRuleset := false }

/-- A one-element single-ruleset batch (message pointer 5, ruleset 7). -/
def exSingleBatch : Batch Nat Nat :=
  { pElem := [⟨5, BState.rdy, some 7⟩], bSingleRuleset := true }

/-- An empty single-ruleset batch: its ruleset pointer is null, so the fast
path must fall back to the default ruleset of the registry. -/
def exEmptyBatch : Batch Nat Nat :=
  { pElem := [], bSingleRuleset := true }

/-- A ruleset object with no rules, parsers or queue. -/
def exRulesetData : RulesetData Nat Nat Nat :=
  { pszName := "rs1", llRules := [], pParserLst := none, pQueue := none }

/-- A ruleset object that already owns a queue. -/
def exRulesetWithQueue : RulesetData Nat Nat Nat :=
  { pszName := "rsq", llRules := [], pParserLst := none, pQueue := some 5 }

/-- A registry with one ruleset and no current ruleset set. -/
def exConfNoCurr : RsConf Nat Nat Nat :=
  { llRulesets := [("rs1", exRulesetData)], pCurr := none, pDflt := none }

/-- A registry with one ruleset which is both current and default. -/
def exConfCurr : RsConf Nat Nat Nat :=
  { llRulesets := [("rs1", exRulesetData)], pCurr := some 0, pDflt := some 0 }

/-- A registry whose current ruleset already owns a queue. -/
def exConfQueue : RsConf Nat Nat Nat :=
  { llRulesets := [("rsq", exRulesetWithQueue)], pCurr := some 0, pDflt := some 0 }

/-- One listener instance with default parameters. -/
def exInst : InstanceConf Nat :=
  { pszBindPort := "10514", pszBindRuleset := none, pBindRuleset := none,
    pszInputName := none, bSuppOctetFram := true }

/-- A module config with a single listener instance. -/
def exModConf : ModConf Nat :=
  { root := [exInst], iTCPSessMax := 200, iTCPLstnMax := 20 }

/-- A module config with no listener instance. -/
def exModConfEmpty : ModConf Nat :=
  { root := [], iTCPSessMax := 200, iTCPLstnMax := 20 }

/-
===========================  theorems  ===========================
First a layer of small facts about the pass helpers, then the invariants of
the partitioning loop by induction on the fuel, then the claim theorems.
-/

section PassLemmas

variable {α ρ : Type} [DecidableEq ρ] [DecidableEq α]

theorem isDisc_eq_true_iff (e : BElem α ρ) : isDisc e = true ↔ e.state = BState.disc := by
  simp [isDisc]

theorem isDisc_eq_false_iff (e : BElem α ρ) : isDisc e = false ↔ e.state = BState.rdy := by
  cases e with
  | mk u s r => cases s <;> simp [isDisc]

theorem markElem_pUsrp (curr : Option ρ) (e : BElem α ρ) :
    (markElem curr e).pUsrp = e.pUsrp := by
  by_cases h : (e.pRuleset == curr) = true <;> simp [markElem, h]

theorem markElem_pRuleset (curr : Option ρ) (e : BElem α ρ) :
    (markElem curr e).pRuleset = e.pRuleset := by
  by_cases h : (e.pRuleset == curr) = true <;> simp [markElem, h]

theorem isDisc_markElem (curr : Option ρ) (e : BElem α ρ) :
    isDisc (markElem curr e) = (isDisc e || e.pRuleset == curr) := by
  by_cases h : (e.pRuleset == curr) = true <;> simp [markElem, isDisc, h]

theorem markElem_of_ne (curr : Option ρ) (e : BElem α ρ) (h : e.pRuleset ≠ curr) :
    markElem curr e = e := by
  simp [markElem, h]

theorem markElem_disc (curr : Option ρ) (e : BElem α ρ) (h : e.pRuleset = curr) :
    (markElem curr e).state = BState.disc := by
  simp [markElem, h]

theorem passMark_map_pUsrp (curr : Option ρ) (l : List (BElem α ρ)) :
    (passMark curr l).map (fun e => e.pUsrp) = l.map (fun e => e.pUsrp) := by
  simp only [passMark, List.map_map]
  exact List.map_congr_left (fun e _ => markElem_pUsrp curr e)

theorem countReady_append (l1 l2 : List (BElem α ρ)) :
    countReady (l1 ++ l2) = countReady l1 + countReady l2 := by
  simp [countReady, List.filter_append]

theorem countReady_cons (e : BElem α ρ) (l : List (BElem α ρ)) :
    countReady (e :: l) = (if isDisc e then 0 else 1) + countReady l := by
  simp only [countReady, List.filter_cons]
  cases h : isDisc e <;> simp [h, Nat.add_comm]

theorem countReady_passMark_le (curr : Option ρ) (l : List (BElem α ρ)) :
    countReady (passMark curr l) ≤ countReady l := by
  induction l with
  | nil => simp [passMark, countReady]
  | cons e l ih =>
      have hcons : passMark curr (e :: l) = markElem curr e :: passMark curr l := rfl
      rw [hcons, countReady_cons, countReady_cons]
      have hle : (if isDisc (markElem curr e) then 0 else 1) ≤ (if isDisc e then 0 else 1) := by
        rw [isDisc_markElem]
        cases h : isDisc e <;> cases hc : (e.pRuleset == curr) <;> simp [h, hc]
      omega

theorem countReady_passMark_head (curr : Option ρ) (e0 : BElem α ρ)
    (tl : List (BElem α ρ)) (h0 : isDisc e0 = false) (hc : e0.pRuleset = curr) :
    countReady (passMark curr (e0 :: tl)) < countReady (e0 :: tl) := by
  have hcons : passMark curr (e0 :: tl) = markElem curr e0 :: passMark curr tl := rfl
  rw [hcons, countReady_cons, countReady_cons, h0]
  have hm : isDisc (markElem curr e0) = true := by
    rw [isDisc_eq_true_iff]
    exact markElem_disc curr e0 hc
  rw [hm]
  have hle := countReady_passMark_le curr tl
  simp only [Bool.false_eq_true, if_false, if_true]
  omega

end PassLemmas

section ScanLemmas

variable {α ρ : Type} [DecidableEq ρ] [DecidableEq α]

theorem dropWhile_head_false {β : Type} (p : β → Bool) :
    ∀ (l : List β) (a : β) (t : List β), l.dropWhile p = a :: t → p a = false := by
  intro l
  induction l with
  | nil => intro a t h; simp [List.dropWhile] at h
  | cons b l ih =>
      intro a t h
      by_cases hb : p b
      · rw [List.dropWhile_cons_of_pos hb] at h
        exact ih a t h
      · rw [List.dropWhile_cons_of_neg hb] at h
        cases h
        simpa using hb

theorem takeWhile_mem_self {β : Type} (p : β → Bool) (l : List β) :
    ∀ e ∈ l.takeWhile p, e ∈ l := by
  intro e he
  have h := List.takeWhile_append_dropWhile (p := p) (l := l)
  rw [← h]
  exact List.mem_append_left _ he

theorem elems_split (elems : List (BElem α ρ)) (e0 : BElem α ρ)
    (tl : List (BElem α ρ)) (h : elems.dropWhile isDisc = e0 :: tl) :
    elems = elems.takeWhile isDisc ++ (e0 :: tl) := by
  have hsplit := List.takeWhile_append_dropWhile (p := isDisc) (l := elems)
  rw [h] at hsplit
  exact hsplit.symm

theorem pre_all_disc (elems : List (BElem α ρ)) :
    ∀ e ∈ elems.takeWhile isDisc, isDisc e = true := by
  intro e he
  exact List.mem_takeWhile_imp he

theorem countReady_pre (elems : List (BElem α ρ)) :
    countReady (elems.takeWhile isDisc) = 0 := by
  simp only [countReady, List.length_eq_zero]
  rw [List.filter_eq_nil_iff]
  intro e he
  have := pre_all_disc elems e he
  simp [this]

theorem countReady_rest_lt (elems : List (BElem α ρ)) (e0 : BElem α ρ)
    (tl : List (BElem α ρ)) (h : elems.dropWhile isDisc = e0 :: tl) :
    countReady (elems.takeWhile isDisc ++ passMark e0.pRuleset (e0 :: tl))
      < countReady elems := by
  have he0 : isDisc e0 = false := dropWhile_head_false isDisc elems e0 tl h
  have hsplit := elems_split elems e0 tl h
  calc countReady (elems.takeWhile isDisc ++ passMark e0.pRuleset (e0 :: tl))
      = countReady (elems.takeWhile isDisc) + countReady (passMark e0.pRuleset (e0 :: tl)) :=
        countReady_append _ _
    _ < countReady (elems.takeWhile isDisc) + countReady (e0 :: tl) := by
        have := countReady_passMark_head e0.pRuleset e0 tl he0 rfl
        omega
    _ = countReady elems := by
        rw [← countReady_append]
        rw [← hsplit]

theorem dropWhile_nil_all_disc (elems : List (BElem α ρ))
    (h : elems.dropWhile isDisc = []) : ∀ e ∈ elems, isDisc e = true := by
  intro e he
  exact (List.dropWhile_eq_nil_iff).mp h e he

theorem passHave_false_all (curr : Option ρ) (l : List (BElem α ρ))
    (h : passHave curr l = false) : ∀ e ∈ l, e.pRuleset = curr := by
  intro e he
  have h2 := List.any_eq_false.mp h e he
  simpa using h2

theorem mem_passSub (curr : Option ρ) (l : List (BElem α ρ)) (e : BElem α ρ) :
    e ∈ passSub curr l ↔ e ∈ l ∧ e.pRuleset = curr := by
  simp [passSub, List.mem_filter]

theorem passSub_cons_self (e0 : BElem α ρ) (tl : List (BElem α ρ)) :
    passSub e0.pRuleset (e0 :: tl) = e0 :: passSub e0.pRuleset tl := by
  simp [passSub, List.filter_cons]

theorem passSub_all_eq (curr : Option ρ) (l : List (BElem α ρ))
    (h : ∀ e ∈ l, e.pRuleset = curr) : passSub curr l = l := by
  rw [passSub, List.filter_eq_self]
  intro e he
  simp [h e he]

theorem mem_passMark (curr : Option ρ) (l : List (BElem α ρ)) (e : BElem α ρ) :
    e ∈ passMark curr l ↔ ∃ f ∈ l, markElem curr f = e := by
  simp [passMark]

end ScanLemmas

section LoopLemmas

variable {α ρ : Type} [DecidableEq ρ] [DecidableEq α]

/-- The loop leaves the message pointers of the original batch in place: the
final element array has the same pUsrp sequence as the input. -/
theorem multiLoopF_final_map_pUsrp :
    ∀ (fuel : Nat) (elems : List (BElem α ρ)), countReady elems < fuel →
      (multiLoopF fuel elems).2.map (fun e => e.pUsrp) = elems.map (fun e => e.pUsrp) := by
  intro fuel
  induction fuel with
  | zero => intro elems hf; omega
  | succ n ih =>
      intro elems hf
      rcases h : elems.dropWhile isDisc with _ | ⟨e0, tl⟩
      · simp only [multiLoopF, h]
      · have hlt := countReady_rest_lt elems e0 tl h
        have hsplit := elems_split elems e0 tl h
        have hgoal :
            (elems.takeWhile isDisc ++ passMark e0.pRuleset (e0 :: tl)).map
                (fun e => e.pUsrp) = elems.map (fun e => e.pUsrp) := by
          rw [List.map_append, passMark_map_pUsrp]
          conv_rhs => rw [hsplit]
          rw [List.map_append]
        by_cases hb : passHave e0.pRuleset (e0 :: tl) = true
        · simp only [multiLoopF, h, hb, if_true]
          rw [ih _ (by omega)]
          exact hgoal
        · have hb2 : passHave e0.pRuleset (e0 :: tl) = false := by
            simpa using hb
          simp only [multiLoopF, h, hb2, Bool.false_eq_true, if_false]
          exact hgoal

/-- C10 core: on return of the loop every element of the original batch is
in state BATCH_STATE_DISC. -/
theorem multiLoopF_final_disc :
    ∀ (fuel : Nat) (elems : List (BElem α ρ)), countReady elems < fuel →
      ∀ e ∈ (multiLoopF fuel elems).2, e.state = BState.disc := by
  intro fuel
  induction fuel with
  | zero => intro elems hf; omega
  | succ n ih =>
      intro elems hf
      rcases h : elems.dropWhile isDisc with _ | ⟨e0, tl⟩
      · simp only [multiLoopF, h]
        intro e he
        exact (isDisc_eq_true_iff e).mp (dropWhile_nil_all_disc elems h e he)
      · have hlt := countReady_rest_lt elems e0 tl h
        by_cases hb : passHave e0.pRuleset (e0 :: tl) = true
        · simp only [multiLoopF, h, hb, if_true]
          exact ih _ (by omega)
        · have hb2 : passHave e0.pRuleset (e0 :: tl) = false := by
            simpa using hb
          simp only [multiLoopF, h, hb2, Bool.false_eq_true, if_false]
          intro e he
          rcases List.mem_append.mp he with hpre | hmark
          · exact (isDisc_eq_true_iff e).mp (pre_all_disc elems e hpre)
          · rcases (mem_passMark _ _ _).mp hmark with ⟨f, hfmem, rfl⟩
            exact markElem_disc _ f (passHave_false_all _ _ hb2 f hfmem)

/-- Membership transfer from the scanned suffix to the whole list. -/
theorem mem_of_suffix (elems : List (BElem α ρ)) (e0 : BElem α ρ)
    (tl : List (BElem α ρ)) (h : elems.dropWhile isDisc = e0 :: tl) :
    ∀ e ∈ (e0 :: tl), e ∈ elems := by
  intro e he
  rw [elems_split elems e0 tl h]
  exact List.mem_append_right _ he

/-- The list handed to the next loop iteration has the same message pointer
sequence as the input. -/
theorem rest_map_pUsrp (elems : List (BElem α ρ)) (e0 : BElem α ρ)
    (tl : List (BElem α ρ)) (h : elems.dropWhile isDisc = e0 :: tl) :
    (elems.takeWhile isDisc ++ passMark e0.pRuleset (e0 :: tl)).map (fun e => e.pUsrp)
      = elems.map (fun e => e.pUsrp) := by
  rw [List.map_append, passMark_map_pUsrp]
  conv_rhs => rw [elems_split elems e0 tl h]
  rw [List.map_append]

/-- Every recorded pass is homogeneous: all elements of a sub-batch carry
the currRuleset of the pass. -/
theorem multiLoopF_homog :
    ∀ (fuel : Nat) (elems : List (BElem α ρ)), countReady elems < fuel →
      ∀ s ∈ (multiLoopF fuel elems).1, ∀ e ∈ s.2, e.pRuleset = s.1 := by
  intro fuel
  induction fuel with
  | zero => intro elems hf; omega
  | succ n ih =>
      intro elems hf
      rcases h : elems.dropWhile isDisc with _ | ⟨e0, tl⟩
      · simp only [multiLoopF, h]
        intro s hs
        simp at hs
      · have hlt := countReady_rest_lt elems e0 tl h
        by_cases hb : passHave e0.pRuleset (e0 :: tl) = true
        · simp only [multiLoopF, h, hb, if_true]
          intro s hs
          rcases List.mem_cons.mp hs with rfl | hs2
          · intro e he
            exact ((mem_passSub _ _ _).mp he).2
          · exact ih _ (by omega) s hs2
        · have hb2 : passHave e0.pRuleset (e0 :: tl) = false := by
            simpa using hb
          simp only [multiLoopF, h, hb2, Bool.false_eq_true, if_false]
          intro s hs
          rcases List.mem_cons.mp hs with rfl | hs2
          · intro e he
            exact ((mem_passSub _ _ _).mp he).2
          · simp at hs2

/-- Every element of every recorded sub-batch traces back to an input
element with the same message pointer and the same ruleset. -/
theorem multiLoopF_skel :
    ∀ (fuel : Nat) (elems : List (BElem α ρ)), countReady elems < fuel →
      ∀ s ∈ (multiLoopF fuel elems).1, ∀ e ∈ s.2,
        ∃ e2 ∈ elems, e2.pUsrp = e.pUsrp ∧ e2.pRuleset = e.pRuleset := by
  intro fuel
  induction fuel with
  | zero => intro elems hf; omega
  | succ n ih =>
      intro elems hf
      rcases h : elems.dropWhile isDisc with _ | ⟨e0, tl⟩
      · simp only [multiLoopF, h]
        intro s hs
        simp at hs
      · have hlt := countReady_rest_lt elems e0 tl h
        have hhead : ∀ e ∈ passSub e0.pRuleset (e0 :: tl),
            ∃ e2 ∈ elems, e2.pUsrp = e.pUsrp ∧ e2.pRuleset = e.pRuleset := by
          intro e he
          have hmem := ((mem_passSub _ _ _).mp he).1
          exact ⟨e, mem_of_suffix elems e0 tl h e hmem, rfl, rfl⟩
        have hlift : ∀ e2 ∈ (elems.takeWhile isDisc ++ passMark e0.pRuleset (e0 :: tl)),
            ∃ e3 ∈ elems, e3.pUsrp = e2.pUsrp ∧ e3.pRuleset = e2.pRuleset := by
          intro e2 he2
          rcases List.mem_append.mp he2 with hpre | hmark
          · exact ⟨e2, takeWhile_mem_self isDisc elems e2 hpre, rfl, rfl⟩
          · rcases (mem_passMark _ _ _).mp hmark with ⟨f, hfmem, rfl⟩
            exact ⟨f, mem_of_suffix elems e0 tl h f hfmem,
                   (markElem_pUsrp _ f).symm, (markElem_pRuleset _ f).symm⟩
        by_cases hb : passHave e0.pRuleset (e0 :: tl) = true
        · simp only [multiLoopF, h, hb, if_true]
          intro s hs
          rcases List.mem_cons.mp hs with rfl | hs2
          · exact hhead
          · intro e he
            rcases ih _ (by omega) s hs2 e he with ⟨e2, he2, hu, hr⟩
            rcases hlift e2 he2 with ⟨e3, he3, hu2, hr2⟩
            exact ⟨e3, he3, hu2.trans hu, hr2.trans hr⟩
        · have hb2 : passHave e0.pRuleset (e0 :: tl) = false := by
            simpa using hb
          simp only [multiLoopF, h, hb2, Bool.false_eq_true, if_false]
          intro s hs
          rcases List.mem_cons.mp hs with rfl | hs2
          · exact hhead
          · simp at hs2

/-- If every element of a given ruleset is already discarded, no pass of
the loop serves that ruleset. -/
theorem multiLoopF_dead :
    ∀ (fuel : Nat) (elems : List (BElem α ρ)), countReady elems < fuel →
      ∀ c : Option ρ, (∀ e ∈ elems, e.pRuleset = c → isDisc e = true) →
        ∀ s ∈ (multiLoopF fuel elems).1, s.1 ≠ c := by
  intro fuel
  induction fuel with
  | zero => intro elems hf; omega
  | succ n ih =>
      intro elems hf
      rcases h : elems.dropWhile isDisc with _ | ⟨e0, tl⟩
      · simp only [multiLoopF, h]
        intro c hc s hs
        simp at hs
      · have hlt := countReady_rest_lt elems e0 tl h
        intro c hc
        have he0mem : e0 ∈ elems := mem_of_suffix elems e0 tl h e0 (List.mem_cons_self e0 tl)
        have he0rdy : isDisc e0 = false := dropWhile_head_false isDisc elems e0 tl h
        have hcurr : e0.pRuleset ≠ c := by
          intro hEq
          have := hc e0 he0mem hEq
          rw [this] at he0rdy
          exact Bool.true_eq_false.mp he0rdy
        have hrest : ∀ e ∈ (elems.takeWhile isDisc ++ passMark e0.pRuleset (e0 :: tl)),
            e.pRuleset = c → isDisc e = true := by
          intro e he hec
          rcases List.mem_append.mp he with hpre | hmark
          · exact pre_all_disc elems e hpre
          · rcases (mem_passMark _ _ _).mp hmark with ⟨f, hfmem, rfl⟩
            rw [isDisc_markElem]
            have hfc : f.pRuleset = c := by
              rw [markElem_pRuleset] at hec
              exact hec
            have := hc f (mem_of_suffix elems e0 tl h f hfmem) hfc
            simp [this]
        by_cases hb : passHave e0.pRuleset (e0 :: tl) = true
        · simp only [multiLoopF, h, hb, if_true]
          intro s hs
          rcases List.mem_cons.mp hs with rfl | hs2
          · exact hcurr
          · exact ih _ (by omega) c hrest s hs2
        · have hb2 : passHave e0.pRuleset (e0 :: tl) = false := by
            simpa using hb
          simp only [multiLoopF, h, hb2, Bool.false_eq_true, if_false]
          intro s hs
          rcases List.mem_cons.mp hs with rfl | hs2
          · exact hcurr
          · simp at hs2

/-- Every recorded sub-batch is non-empty and starts with an element whose
ruleset is the currRuleset of the pass (hence batchGetRuleset of the
temporary batch is that ruleset). -/
theorem multiLoopF_head_tag :
    ∀ (fuel : Nat) (elems : List (BElem α ρ)), countReady elems < fuel →
      ∀ s ∈ (multiLoopF fuel elems).1,
        ∃ f t, s.2 = f :: t ∧ f.pRuleset = s.1 := by
  intro fuel
  induction fuel with
  | zero => intro elems hf; omega
  | succ n ih =>
      intro elems hf
      rcases h : elems.dropWhile isDisc with _ | ⟨e0, tl⟩
      · simp only [multiLoopF, h]
        intro s hs
        simp at hs
      · have hlt := countReady_rest_lt elems e0 tl h
        by_cases hb : passHave e0.pRuleset (e0 :: tl) = true
        · simp only [multiLoopF, h, hb, if_true]
          intro s hs
          rcases List.mem_cons.mp hs with rfl | hs2
          · exact ⟨e0, passSub e0.pRuleset tl, passSub_cons_self e0 tl, rfl⟩
          · exact ih _ (by omega) s hs2
        · have hb2 : passHave e0.pRuleset (e0 :: tl) = false := by
            simpa using hb
          simp only [multiLoopF, h, hb2, Bool.false_eq_true, if_false]
          intro s hs
          rcases List.mem_cons.mp hs with rfl | hs2
          · exact ⟨e0, passSub e0.pRuleset tl, passSub_cons_self e0 tl, rfl⟩
          · simp at hs2

end LoopLemmas

section FirstOccsLemmas

/-- firstOccsAux with a seen set equals firstOccs of the list with the seen
values filtered out. -/
theorem firstOccsAux_eq_firstOccs {β : Type} [DecidableEq β] :
    ∀ (n : Nat) (l : List β), l.length ≤ n → ∀ seen : List β,
      firstOccsAux seen l = firstOccs (l.filter (fun x => !(decide (x ∈ seen)))) := by
  intro n
  induction n with
  | zero =>
      intro l hl seen
      have hnil : l = [] := List.length_eq_zero.mp (Nat.le_zero.mp hl)
      subst hnil
      rfl
  | succ n ih =>
      intro l hl seen
      cases l with
      | nil => rfl
      | cons x xs =>
          simp only [List.length_cons] at hl
          by_cases hx : x ∈ seen
          · have hfilter : (x :: xs).filter (fun y => !(decide (y ∈ seen)))
                = xs.filter (fun y => !(decide (y ∈ seen))) := by
              simp [List.filter_cons, hx]
            rw [hfilter]
            simp only [firstOccsAux, if_pos hx]
            exact ih xs (by omega) seen
          · have hfilter : (x :: xs).filter (fun y => !(decide (y ∈ seen)))
                = x :: xs.filter (fun y => !(decide (y ∈ seen))) := by
              simp [List.filter_cons, hx]
            rw [hfilter]
            simp only [firstOccsAux, if_neg hx]
            have hR : firstOccs (x :: xs.filter (fun y => !(decide (y ∈ seen))))
                = x :: firstOccsAux [x] (xs.filter (fun y => !(decide (y ∈ seen)))) := by
              simp [firstOccs, firstOccsAux]
            rw [hR]
            congr 1
            rw [ih xs (by omega) (x :: seen)]
            have hlen : (xs.filter (fun y => !(decide (y ∈ seen)))).length ≤ n := by
              calc (xs.filter (fun y => !(decide (y ∈ seen)))).length
                  ≤ xs.length := List.length_filter_le _ _
                _ ≤ n := by omega
            rw [ih (xs.filter (fun y => !(decide (y ∈ seen)))) hlen [x]]
            rw [List.filter_filter]
            congr 1
            apply List.filter_congr
            intro a _
            by_cases ha1 : a = x <;> by_cases ha2 : a ∈ seen <;> simp [ha1, ha2]

/-- The unfolding equation of firstOccs on a cons cell: the head is kept and
its later duplicates are dropped. -/
theorem firstOccs_cons {β : Type} [DecidableEq β] (r : β) (rs : List β) :
    firstOccs (r :: rs) = r :: firstOccs (rs.filter (fun x => !(decide (x = r)))) := by
  have h1 : firstOccs (r :: rs) = r :: firstOccsAux [r] rs := by
    simp [firstOccs, firstOccsAux]
  rw [h1]
  congr 1
  rw [firstOccsAux_eq_firstOccs rs.length rs le_rfl [r]]
  congr 1
  apply List.filter_congr
  intro a _
  by_cases ha : a = r <;> simp [ha]

end FirstOccsLemmas

section OrderLemmas

variable {α ρ : Type} [DecidableEq ρ] [DecidableEq α]

theorem readyRulesets_append (l1 l2 : List (BElem α ρ)) :
    readyRulesets (l1 ++ l2) = readyRulesets l1 ++ readyRulesets l2 := by
  simp [readyRulesets, List.filter_append]

theorem readyRulesets_cons (e : BElem α ρ) (l : List (BElem α ρ)) :
    readyRulesets (e :: l) =
      if isDisc e then readyRulesets l else e.pRuleset :: readyRulesets l := by
  cases hd : isDisc e <;> simp [readyRulesets, List.filter_cons, hd]

theorem readyRulesets_cons_rdy (e : BElem α ρ) (l : List (BElem α ρ))
    (he : isDisc e = false) :
    readyRulesets (e :: l) = e.pRuleset :: readyRulesets l := by
  simp [readyRulesets, List.filter_cons, he]

theorem readyRulesets_pre (elems : List (BElem α ρ)) :
    readyRulesets (elems.takeWhile isDisc) = [] := by
  rw [readyRulesets]
  have hnil : (elems.takeWhile isDisc).filter (fun e => !(isDisc e)) = [] := by
    rw [List.filter_eq_nil_iff]
    intro e he
    simp [pre_all_disc elems e he]
  rw [hnil, List.map_nil]

theorem readyRulesets_all_disc (elems : List (BElem α ρ))
    (h : ∀ e ∈ elems, isDisc e = true) : readyRulesets elems = [] := by
  rw [readyRulesets]
  have hnil : elems.filter (fun e => !(isDisc e)) = [] := by
    rw [List.filter_eq_nil_iff]
    intro e he
    simp [h e he]
  rw [hnil, List.map_nil]

theorem readyRulesets_passMark (c : Option ρ) (l : List (BElem α ρ)) :
    readyRulesets (passMark c l) = (readyRulesets l).filter (fun r => !(decide (r = c))) := by
  induction l with
  | nil => rfl
  | cons e l ih =>
      have hcons : passMark c (e :: l) = markElem c e :: passMark c l := rfl
      rw [hcons, readyRulesets_cons, readyRulesets_cons e l, isDisc_markElem,
          markElem_pRuleset]
      cases hd : isDisc e <;> by_cases hc : e.pRuleset = c <;>
        simp [hc, hd, ih, List.filter_cons]

theorem readyRulesets_filter_all_curr (curr : Option ρ) (l : List (BElem α ρ))
    (h : ∀ e ∈ l, e.pRuleset = curr) :
    (readyRulesets l).filter (fun r => !(decide (r = curr))) = [] := by
  rw [List.filter_eq_nil_iff]
  intro r hr
  simp only [readyRulesets, List.mem_map, List.mem_filter] at hr
  rcases hr with ⟨e, ⟨hel, _⟩, rfl⟩
  simp [h e hel]

/-- C2 core (amended order): the rulesets of the recorded passes, in order,
are the distinct rulesets of the non-discarded elements in order of first
occurrence. -/
theorem multiLoopF_tags :
    ∀ (fuel : Nat) (elems : List (BElem α ρ)), countReady elems < fuel →
      (multiLoopF fuel elems).1.map Prod.fst = firstOccs (readyRulesets elems) := by
  intro fuel
  induction fuel with
  | zero => intro elems hf; omega
  | succ n ih =>
      intro elems hf
      rcases h : elems.dropWhile isDisc with _ | ⟨e0, tl⟩
      · simp only [multiLoopF, h, List.map_nil]
        rw [readyRulesets_all_disc elems (dropWhile_nil_all_disc elems h)]
        rfl
      · have hlt := countReady_rest_lt elems e0 tl h
        have he0 : isDisc e0 = false := dropWhile_head_false isDisc elems e0 tl h
        have hrds : readyRulesets elems = e0.pRuleset :: readyRulesets tl := by
          conv_lhs => rw [elems_split elems e0 tl h]
          rw [readyRulesets_append, readyRulesets_pre, List.nil_append,
              readyRulesets_cons_rdy e0 tl he0]
        have hrest_rds :
            readyRulesets (elems.takeWhile isDisc ++ passMark e0.pRuleset (e0 :: tl))
              = (readyRulesets tl).filter (fun r => !(decide (r = e0.pRuleset))) := by
          rw [readyRulesets_append, readyRulesets_pre, List.nil_append,
              readyRulesets_passMark, readyRulesets_cons_rdy e0 tl he0,
              List.filter_cons]
          simp
        rw [hrds, firstOccs_cons]
        by_cases hb : passHave e0.pRuleset (e0 :: tl) = true
        · simp only [multiLoopF, h, hb, if_true, List.map_cons]
          congr 1
          rw [ih _ (by omega), hrest_rds]
        · have hb2 : passHave e0.pRuleset (e0 :: tl) = false := by
            simpa using hb
          simp only [multiLoopF, h, hb2, Bool.false_eq_true, if_false, List.map_cons,
            List.map_nil]
          congr 1
          have hall : ∀ e ∈ tl, e.pRuleset = e0.pRuleset := by
            intro e he
            exact passHave_false_all _ _ hb2 e (List.mem_cons_of_mem _ he)
          rw [readyRulesets_filter_all_curr e0.pRuleset tl hall]
          rfl

/-- C2 core (relative order): every recorded sub-batch lists its message
pointers as a subsequence of the original batch, hence in original relative
order. -/
theorem multiLoopF_suborder :
    ∀ (fuel : Nat) (elems : List (BElem α ρ)), countReady elems < fuel →
      ∀ s ∈ (multiLoopF fuel elems).1,
        (s.2.map (fun e => e.pUsrp)).Sublist (elems.map (fun e => e.pUsrp)) := by
  intro fuel
  induction fuel with
  | zero => intro elems hf; omega
  | succ n ih =>
      intro elems hf
      rcases h : elems.dropWhile isDisc with _ | ⟨e0, tl⟩
      · simp only [multiLoopF, h]
        intro s hs
        simp at hs
      · have hlt := countReady_rest_lt elems e0 tl h
        have hhead :
            ((passSub e0.pRuleset (e0 :: tl)).map (fun e => e.pUsrp)).Sublist
              (elems.map (fun e => e.pUsrp)) := by
          have h1 : (passSub e0.pRuleset (e0 :: tl)).Sublist (e0 :: tl) :=
            List.filter_sublist _
          have h2 : (e0 :: tl).Sublist elems := by
            conv_rhs => rw [elems_split elems e0 tl h]
            exact List.sublist_append_right _ _
          exact (h1.trans h2).map _
        by_cases hb : passHave e0.pRuleset (e0 :: tl) = true
        · simp only [multiLoopF, h, hb, if_true]
          intro s hs
          rcases List.mem_cons.mp hs with rfl | hs2
          · exact hhead
          · have := ih _ (by omega) s hs2
            rwa [rest_map_pUsrp elems e0 tl h] at this
        · have hb2 : passHave e0.pRuleset (e0 :: tl) = false := by
            simpa using hb
          simp only [multiLoopF, h, hb2, Bool.false_eq_true, if_false]
          intro s hs
          rcases List.mem_cons.mp hs with rfl | hs2
          · exact hhead
          · simp at hs2

end OrderLemmas

section CountLemmas

variable {α ρ : Type} [DecidableEq ρ] [DecidableEq α]

theorem usrpCount_cons (x : α) (e : BElem α ρ) (l : List (BElem α ρ)) :
    usrpCount x (e :: l)
      = usrpCount x l + (if (e.pUsrp == x) = true then 1 else 0) := by
  rw [usrpCount, usrpCount, List.countP_cons]

theorem usrpCount_append (x : α) (l1 l2 : List (BElem α ρ)) :
    usrpCount x (l1 ++ l2) = usrpCount x l1 + usrpCount x l2 := by
  simp [usrpCount, List.countP_append]

theorem readyUsrpCount_cons (x : α) (e : BElem α ρ) (l : List (BElem α ρ)) :
    readyUsrpCount x (e :: l)
      = readyUsrpCount x l + (if (e.pUsrp == x && !(isDisc e)) = true then 1 else 0) := by
  rw [readyUsrpCount, readyUsrpCount, List.countP_cons]

theorem readyUsrpCount_append (x : α) (l1 l2 : List (BElem α ρ)) :
    readyUsrpCount x (l1 ++ l2) = readyUsrpCount x l1 + readyUsrpCount x l2 := by
  simp [readyUsrpCount, List.countP_append]

theorem readyUsrpCount_pre (x : α) (elems : List (BElem α ρ)) :
    readyUsrpCount x (elems.takeWhile isDisc) = 0 := by
  rw [readyUsrpCount, List.countP_eq_zero]
  intro e he
  simp [pre_all_disc elems e he]

theorem readyUsrpCount_all_disc (x : α) (elems : List (BElem α ρ))
    (h : ∀ e ∈ elems, isDisc e = true) : readyUsrpCount x elems = 0 := by
  rw [readyUsrpCount, List.countP_eq_zero]
  intro e he
  simp [h e he]

theorem readyUsrpCount_le_usrpCount (x : α) (l : List (BElem α ρ)) :
    readyUsrpCount x l ≤ usrpCount x l := by
  induction l with
  | nil => simp [readyUsrpCount, usrpCount]
  | cons e l ih =>
      rw [readyUsrpCount_cons, usrpCount_cons]
      have hle : (if (e.pUsrp == x && !(isDisc e)) = true then 1 else 0)
          ≤ (if (e.pUsrp == x) = true then 1 else 0) := by
        cases hu : (e.pUsrp == x) <;> cases hd : isDisc e <;> simp [hu, hd]
      omega

theorem tagDispatchCount_cons (x : α) (c : Option ρ) (sub : List (BElem α ρ))
    (subs : List (Option ρ × List (BElem α ρ))) :
    tagDispatchCount x ((c, sub) :: subs)
      = usrpCount x sub + tagDispatchCount x subs := by
  simp [tagDispatchCount]

theorem tagDispatchCount_nil (x : α) :
    tagDispatchCount x ([] : List (Option ρ × List (BElem α ρ))) = 0 := rfl

/-- One pass loses no ready copy of x: the copies of x among the not yet
discarded elements are accounted for either in the copied sub-batch or among
the still-ready elements after the marking. -/
theorem pass_count_split (x : α) (curr : Option ρ) (l : List (BElem α ρ)) :
    readyUsrpCount x l
      ≤ usrpCount x (passSub curr l) + readyUsrpCount x (passMark curr l) := by
  induction l with
  | nil => simp [readyUsrpCount, usrpCount, passSub, passMark]
  | cons e l ih =>
      have hmark : passMark curr (e :: l) = markElem curr e :: passMark curr l := rfl
      rcases Bool.eq_false_or_eq_true (e.pRuleset == curr) with hc | hc
      swap
      · have heq : markElem curr e = e := by
          apply markElem_of_ne
          intro habs
          rw [habs] at hc
          simp at hc
        have hsub : passSub curr (e :: l) = passSub curr l := by
          simp [passSub, List.filter_cons, hc]
        rw [hsub, hmark, heq, readyUsrpCount_cons x e l,
            readyUsrpCount_cons x e (passMark curr l)]
        omega
      · have hsub : passSub curr (e :: l) = e :: passSub curr l := by
          simp [passSub, List.filter_cons, hc]
        have hdisc : isDisc (markElem curr e) = true := by
          rw [isDisc_markElem, hc, Bool.or_true]
        rw [hsub, hmark, readyUsrpCount_cons x e l,
            usrpCount_cons x e (passSub curr l),
            readyUsrpCount_cons x (markElem curr e) (passMark curr l)]
        have hm0 : (if ((markElem curr e).pUsrp == x && !(isDisc (markElem curr e))) = true
            then 1 else 0) = 0 := by
          rw [hdisc]
          simp
        have hle : (if (e.pUsrp == x && !(isDisc e)) = true then 1 else 0)
            ≤ (if (e.pUsrp == x) = true then 1 else 0) := by
          cases hu : (e.pUsrp == x) <;> cases hd : isDisc e <;> simp [hu, hd]
        omega

/-- C1 lower bound: every copy of x that is ready at entry appears at least
once across the recorded passes. -/
theorem multiLoopF_ge :
    ∀ (fuel : Nat) (elems : List (BElem α ρ)), countReady elems < fuel → ∀ x : α,
      readyUsrpCount x elems ≤ tagDispatchCount x (multiLoopF fuel elems).1 := by
  intro fuel
  induction fuel with
  | zero => intro elems hf; omega
  | succ n ih =>
      intro elems hf x
      rcases h : elems.dropWhile isDisc with _ | ⟨e0, tl⟩
      · simp only [multiLoopF, h]
        rw [readyUsrpCount_all_disc x elems (dropWhile_nil_all_disc elems h)]
        simp [tagDispatchCount]
      · have hlt := countReady_rest_lt elems e0 tl h
        have hsplitc : readyUsrpCount x elems = readyUsrpCount x (e0 :: tl) := by
          conv_lhs => rw [elems_split elems e0 tl h]
          rw [readyUsrpCount_append, readyUsrpCount_pre, Nat.zero_add]
        have hrest : readyUsrpCount x
              (elems.takeWhile isDisc ++ passMark e0.pRuleset (e0 :: tl))
            = readyUsrpCount x (passMark e0.pRuleset (e0 :: tl)) := by
          rw [readyUsrpCount_append, readyUsrpCount_pre, Nat.zero_add]
        by_cases hb : passHave e0.pRuleset (e0 :: tl) = true
        · simp only [multiLoopF, h, hb, if_true]
          rw [tagDispatchCount_cons]
          have hih := ih (elems.takeWhile isDisc ++ passMark e0.pRuleset (e0 :: tl))
            (by omega) x
          rw [hrest] at hih
          have hpass := pass_count_split x e0.pRuleset (e0 :: tl)
          omega
        · have hb2 : passHave e0.pRuleset (e0 :: tl) = false := by
            simpa using hb
          simp only [multiLoopF, h, hb2, Bool.false_eq_true, if_false]
          rw [tagDispatchCount_cons, tagDispatchCount_nil]
          rw [passSub_all_eq e0.pRuleset (e0 :: tl) (passHave_false_all _ _ hb2)]
          have := readyUsrpCount_le_usrpCount x (e0 :: tl)
          omega

theorem usrpCount_le_one (x : α) :
    ∀ (l : List (BElem α ρ)), (l.map (fun e => e.pUsrp)).Nodup → usrpCount x l ≤ 1 := by
  intro l
  induction l with
  | nil =>
      intro h
      simp [usrpCount]
  | cons e l ih =>
      intro h
      rw [List.map_cons, List.nodup_cons] at h
      rw [usrpCount_cons]
      rcases Bool.eq_false_or_eq_true (e.pUsrp == x) with hx | hx
      swap
      · rw [hx]
        simp only [Bool.false_eq_true, if_false]
        have := ih h.2
        omega
      · have hx2 : e.pUsrp = x := by simpa using hx
        have hzero : usrpCount x l = 0 := by
          rw [usrpCount, List.countP_eq_zero]
          intro f hf habs
          have hfx : f.pUsrp = x := by simpa using habs
          apply h.1
          rw [hx2, ← hfx]
          exact List.mem_map_of_mem _ hf
        rw [hzero, hx]
        simp

/-- After a pass for currRuleset, every element of the handed-on list with
that ruleset is discarded. -/
theorem rest_curr_disc (elems : List (BElem α ρ)) (e0 : BElem α ρ)
    (tl : List (BElem α ρ)) (h : elems.dropWhile isDisc = e0 :: tl) :
    ∀ e ∈ (elems.takeWhile isDisc ++ passMark e0.pRuleset (e0 :: tl)),
      e.pRuleset = e0.pRuleset → isDisc e = true := by
  intro e he hec
  rcases List.mem_append.mp he with hpre | hmark
  · exact pre_all_disc elems e hpre
  · rcases (mem_passMark _ _ _).mp hmark with ⟨f, hfmem, rfl⟩
    rw [markElem_pRuleset] at hec
    rw [isDisc_markElem]
    simp [hec]

/-- With pairwise distinct message pointers, once pointer x is known to sit
in the scanned suffix with ruleset currRuleset, every carrier of x in the
handed-on list also has ruleset currRuleset. -/
theorem rest_usrp_ruleset (elems : List (BElem α ρ)) (e0 : BElem α ρ)
    (tl : List (BElem α ρ)) (h : elems.dropWhile isDisc = e0 :: tl)
    (hnd : (elems.map (fun e => e.pUsrp)).Nodup) (x : α) (e1 : BElem α ρ)
    (he1 : e1 ∈ (e0 :: tl)) (hx1 : e1.pUsrp = x) (hc1 : e1.pRuleset = e0.pRuleset) :
    ∀ e2 ∈ (elems.takeWhile isDisc ++ passMark e0.pRuleset (e0 :: tl)),
      e2.pUsrp = x → e2.pRuleset = e0.pRuleset := by
  have hmap : elems.map (fun e => e.pUsrp)
      = (elems.takeWhile isDisc).map (fun e => e.pUsrp)
          ++ (e0 :: tl).map (fun e => e.pUsrp) := by
    conv_lhs => rw [elems_split elems e0 tl h]
    rw [List.map_append]
  rw [hmap] at hnd
  have hparts := List.nodup_append.mp hnd
  intro e2 he2 hx2
  rcases List.mem_append.mp he2 with hpre | hmark
  · exfalso
    have hxpre : x ∈ (elems.takeWhile isDisc).map (fun e => e.pUsrp) := by
      rw [← hx2]
      exact List.mem_map_of_mem _ hpre
    have hxsuf : x ∈ (e0 :: tl).map (fun e => e.pUsrp) := by
      rw [← hx1]
      exact List.mem_map_of_mem _ he1
    exact hparts.2.2 hxpre hxsuf
  · rcases (mem_passMark _ _ _).mp hmark with ⟨f, hfmem, rfl⟩
    rw [markElem_pRuleset]
    rw [markElem_pUsrp] at hx2
    have hfe1 : f = e1 := by
      apply List.inj_on_of_nodup_map hparts.2.1 hfmem he1
      rw [hx2, hx1]
    rw [hfe1, hc1]

/-- C1 upper bound: with pairwise distinct message pointers, no pointer x is
copied into more than one pass (no element is dispatched twice). -/
theorem multiLoopF_le_one :
    ∀ (fuel : Nat) (elems : List (BElem α ρ)), countReady elems < fuel →
      (elems.map (fun e => e.pUsrp)).Nodup → ∀ x : α,
      tagDispatchCount x (multiLoopF fuel elems).1 ≤ 1 := by
  intro fuel
  induction fuel with
  | zero => intro elems hf; omega
  | succ n ih =>
      intro elems hf hnd x
      rcases h : elems.dropWhile isDisc with _ | ⟨e0, tl⟩
      · simp only [multiLoopF, h]
        simp [tagDispatchCount]
      · have hlt := countReady_rest_lt elems e0 tl h
        have hndrest :
            ((elems.takeWhile isDisc ++ passMark e0.pRuleset (e0 :: tl)).map
              (fun e => e.pUsrp)).Nodup := by
          rw [rest_map_pUsrp elems e0 tl h]
          exact hnd
        have hsuf_le : usrpCount x (e0 :: tl) ≤ usrpCount x elems := by
          conv_rhs => rw [elems_split elems e0 tl h]
          rw [usrpCount_append]
          omega
        have hsub_le : usrpCount x (passSub e0.pRuleset (e0 :: tl))
            ≤ usrpCount x (e0 :: tl) :=
          (List.filter_sublist _).countP_le _
        have helems_le : usrpCount x elems ≤ 1 := usrpCount_le_one x elems hnd
        by_cases hb : passHave e0.pRuleset (e0 :: tl) = true
        · simp only [multiLoopF, h, hb, if_true]
          rw [tagDispatchCount_cons]
          rcases Nat.eq_zero_or_pos (usrpCount x (passSub e0.pRuleset (e0 :: tl)))
            with hz | hpos
          · have := ih _ (by omega) hndrest x
            omega
          · rcases (List.countP_pos_iff).mp hpos with ⟨e1, he1sub, he1p⟩
            have he1 := (mem_passSub _ _ _).mp he1sub
            have hx1 : e1.pUsrp = x := by simpa using he1p
            have hzero : tagDispatchCount x
                (multiLoopF n
                  (elems.takeWhile isDisc ++ passMark e0.pRuleset (e0 :: tl))).1 = 0 := by
              rw [tagDispatchCount]
              apply List.sum_eq_zero
              intro i hi
              rcases List.mem_map.mp hi with ⟨s, hs, rfl⟩
              rw [usrpCount, List.countP_eq_zero]
              intro e he habs
              have hex : e.pUsrp = x := by simpa using habs
              have hhom := multiLoopF_homog n _ (by omega) s hs e he
              rcases multiLoopF_skel n _ (by omega) s hs e he with ⟨e2, he2, hu2, hr2⟩
              have hdead := multiLoopF_dead n _ (by omega) e0.pRuleset
                (rest_curr_disc elems e0 tl h) s hs
              have hcontra : e2.pRuleset = e0.pRuleset :=
                rest_usrp_ruleset elems e0 tl h hnd x e1 he1.1 hx1 he1.2 e2 he2
                  (hu2.trans hex)
              rw [hr2, hhom] at hcontra
              exact hdead hcontra
            omega
        · have hb2 : passHave e0.pRuleset (e0 :: tl) = false := by
            simpa using hb
          simp only [multiLoopF, h, hb2, Bool.false_eq_true, if_false]
          rw [tagDispatchCount_cons, tagDispatchCount_nil]
          omega

end CountLemmas

section ContentLemmas

variable {α ρ : Type} [DecidableEq ρ] [DecidableEq α]

/-- Marking one ruleset does not change the result of filtering for another
ruleset: the marking only flips states and preserves rulesets. -/
theorem filter_passMark_ne (c c2 : Option ρ) (l : List (BElem α ρ)) (hne : c2 ≠ c) :
    (passMark c l).filter (fun e => e.pRuleset == c2)
      = l.filter (fun e => e.pRuleset == c2) := by
  induction l with
  | nil => rfl
  | cons e l ih =>
      have hmark : passMark c (e :: l) = markElem c e :: passMark c l := rfl
      rw [hmark, List.filter_cons, List.filter_cons]
      by_cases hc : (e.pRuleset == c) = true
      · have he_c : e.pRuleset = c := by simpa using hc
        have h1 : ((markElem c e).pRuleset == c2) = false := by
          rw [markElem_pRuleset, he_c, beq_eq_false_iff_ne]
          exact Ne.symm hne
        have h2 : (e.pRuleset == c2) = false := by
          rw [he_c, beq_eq_false_iff_ne]
          exact Ne.symm hne
        rw [h1, h2]
        simpa using ih
      · have heq : markElem c e = e := markElem_of_ne _ _ (by simpa using hc)
        rw [heq, ih]

/-- Sub-batch contents under the clean-partition invariant: when the
discarded elements are exactly those whose ruleset lies in D, every recorded
sub-batch consists of exactly the elements of the original batch carrying
the ruleset of the pass, in original order and with original states. -/
theorem multiLoopF_content :
    ∀ (fuel : Nat) (elems : List (BElem α ρ)), countReady elems < fuel →
      ∀ D : List (Option ρ),
        (∀ e ∈ elems, isDisc e = true ↔ e.pRuleset ∈ D) →
        ∀ s ∈ (multiLoopF fuel elems).1,
          s.2 = elems.filter (fun e => e.pRuleset == s.1) := by
  intro fuel
  induction fuel with
  | zero => intro elems hf; omega
  | succ n ih =>
      intro elems hf D hD
      rcases h : elems.dropWhile isDisc with _ | ⟨e0, tl⟩
      · simp only [multiLoopF, h]
        intro s hs
        simp at hs
      · have hlt := countReady_rest_lt elems e0 tl h
        have he0 : isDisc e0 = false := dropWhile_head_false isDisc elems e0 tl h
        have he0mem : e0 ∈ elems :=
          mem_of_suffix elems e0 tl h e0 (List.mem_cons_self e0 tl)
        have hcurrD : e0.pRuleset ∉ D := by
          intro habs
          have hcontr := (hD e0 he0mem).mpr habs
          rw [hcontr] at he0
          exact Bool.true_eq_false.mp he0
        have hpre_none :
            (elems.takeWhile isDisc).filter (fun e => e.pRuleset == e0.pRuleset) = [] := by
          rw [List.filter_eq_nil_iff]
          intro e he habs
          have hec : e.pRuleset = e0.pRuleset := by simpa using habs
          have hmem : e ∈ elems := takeWhile_mem_self isDisc elems e he
          have hin : e.pRuleset ∈ D := (hD e hmem).mp (pre_all_disc elems e he)
          rw [hec] at hin
          exact hcurrD hin
        have hhead : passSub e0.pRuleset (e0 :: tl)
            = elems.filter (fun e => e.pRuleset == e0.pRuleset) := by
          conv_rhs => rw [elems_split elems e0 tl h]
          rw [List.filter_append, hpre_none, List.nil_append]
          rfl
        have hD2 : ∀ e ∈ (elems.takeWhile isDisc ++ passMark e0.pRuleset (e0 :: tl)),
            isDisc e = true ↔ e.pRuleset ∈ (e0.pRuleset :: D) := by
          intro e he
          rcases List.mem_append.mp he with hpre | hmark
          · constructor
            · intro _
              have hmem : e ∈ elems := takeWhile_mem_self isDisc elems e hpre
              exact List.mem_cons_of_mem _ ((hD e hmem).mp (pre_all_disc elems e hpre))
            · intro _
              exact pre_all_disc elems e hpre
          · rcases (mem_passMark _ _ _).mp hmark with ⟨f, hfmem, rfl⟩
            have hfmem2 : f ∈ elems := mem_of_suffix elems e0 tl h f hfmem
            by_cases hfc : (f.pRuleset == e0.pRuleset) = true
            · have hfc2 : f.pRuleset = e0.pRuleset := by simpa using hfc
              constructor
              · intro _
                rw [markElem_pRuleset, hfc2]
                exact List.mem_cons_self _ _
              · intro _
                rw [isDisc_eq_true_iff]
                exact markElem_disc _ f hfc2
            · have heq : markElem e0.pRuleset f = f :=
                markElem_of_ne _ _ (by simpa using hfc)
              rw [heq]
              have hfc2 : f.pRuleset ≠ e0.pRuleset := by simpa using hfc
              constructor
              · intro hdf
                exact List.mem_cons_of_mem _ ((hD f hfmem2).mp hdf)
              · intro hin
                rcases List.mem_cons.mp hin with hcase | hcase
                · exact absurd hcase hfc2
                · exact (hD f hfmem2).mpr hcase
        by_cases hb : passHave e0.pRuleset (e0 :: tl) = true
        · simp only [multiLoopF, h, hb, if_true]
          intro s hs
          rcases List.mem_cons.mp hs with rfl | hs2
          · exact hhead
          · have hihs := ih _ (by omega) (e0.pRuleset :: D) hD2 s hs2
            have hsne : s.1 ≠ e0.pRuleset :=
              multiLoopF_dead n _ (by omega) e0.pRuleset
                (rest_curr_disc elems e0 tl h) s hs2
            rw [hihs, List.filter_append, filter_passMark_ne e0.pRuleset s.1 (e0 :: tl) hsne]
            conv_rhs => rw [elems_split elems e0 tl h]
            rw [List.filter_append]
        · have hb2 : passHave e0.pRuleset (e0 :: tl) = false := by
            simpa using hb
          simp only [multiLoopF, h, hb2, Bool.false_eq_true, if_false]
          intro s hs
          rcases List.mem_cons.mp hs with rfl | hs2
          · exact hhead
          · simp at hs2

end ContentLemmas

section ClaimBatch

variable {α ρ : Type} [DecidableEq ρ] [DecidableEq α]

theorem dispatchCount_eq_tag (x : α) (b : Batch α ρ) :
    dispatchCount x (processBatchMultiRuleset b).1
      = tagDispatchCount x (multiLoop b.pElem).1 := by
  simp only [processBatchMultiRuleset, dispatchCount, tagDispatchCount, List.map_map]
  rfl

/-- C1: For every batch with single_ruleset = false whose elements carry
pairwise distinct message pointers, after processBatchMultiRuleset returns,
every element that was not DISCARDED at entry has been copied into exactly
one of the temporary batches handed to processBatch (the returned list
records one entry per processBatch invocation), no message pointer is copied
into two sub-batches, and every handed batch has bSingleRuleset set. -/
theorem multi_ruleset_dispatch_exactly_once (b : Batch α ρ)
    (hnd : (b.pElem.map (fun e => e.pUsrp)).Nodup) :
    (∀ e ∈ b.pElem, isDisc e = false →
        dispatchCount e.pUsrp (processBatchMultiRuleset b).1 = 1)
    ∧ (∀ x : α, dispatchCount x (processBatchMultiRuleset b).1 ≤ 1)
    ∧ (∀ sb ∈ (processBatchMultiRuleset b).1, sb.bSingleRuleset = true) := by
  have hle := multiLoopF_le_one (countReady b.pElem + 1) b.pElem (Nat.lt_succ_self _) hnd
  have hge := multiLoopF_ge (countReady b.pElem + 1) b.pElem (Nat.lt_succ_self _)
  refine ⟨?_, ?_, ?_⟩
  · intro e he hrdy
    rw [dispatchCount_eq_tag, multiLoop]
    have h1 : 1 ≤ readyUsrpCount e.pUsrp b.pElem := by
      rw [readyUsrpCount]
      have hpos : 0 < b.pElem.countP (fun f => f.pUsrp == e.pUsrp && !(isDisc f)) := by
        rw [List.countP_pos_iff]
        exact ⟨e, he, by simp [hrdy]⟩
      omega
    have h2 := hge e.pUsrp
    have h3 := hle e.pUsrp
    omega
  · intro x
    rw [dispatchCount_eq_tag, multiLoop]
    exact hle x
  · intro sb hsb
    have hsb2 : ∃ c sub, (c, sub) ∈ (multiLoop b.pElem).1
        ∧ ({ pElem := sub, bSingleRuleset := true } : Batch α ρ) = sb := by
      simpa [processBatchMultiRuleset] using hsb
    rcases hsb2 with ⟨c, sub, hs, rfl⟩
    rfl

theorem multi_ruleset_dispatch_exactly_once_wit :
    ((exBatch.pElem.map (fun e => e.pUsrp)).Nodup)
    ∧ dispatchCount 0 (processBatchMultiRuleset exBatch).1 = 1
    ∧ dispatchCount 9 (processBatchMultiRuleset exBatch).1 ≤ 1 := by
  refine ⟨by decide, ?_, ?_⟩
  · exact (multi_ruleset_dispatch_exactly_once exBatch (by decide)).1
      ⟨0, BState.rdy, some 0⟩ (by decide) (by decide)
  · exact (multi_ruleset_dispatch_exactly_once exBatch (by decide)).2.1 9

/-- C2 as written fails on the code: in the batch cexBatch the ruleset
first encountered in the batch (position 0) is A = 0, carried by an element
already DISCARDED at entry, yet the first sub-batch the loop produces is
for B = 1, because the scan for iStart skips discarded elements.  The
produced pass order is B then A while first-encounter order in the batch is
A then B. -/
theorem multi_ruleset_order_cex :
    (processBatchMultiRuleset cexBatch).1.map batchGetRuleset = [some 1, some 0]
    ∧ firstOccs (cexBatch.pElem.map (fun e => e.pRuleset)) = [some 0, some 1]
    ∧ (processBatchMultiRuleset cexBatch).1.map batchGetRuleset
        ≠ firstOccs (cexBatch.pElem.map (fun e => e.pRuleset)) :=
  ⟨by decide, by decide, by decide⟩

/-- C2 amended: the sub-batches are produced in the order each distinct
ruleset is first encountered among the elements not DISCARDED at entry;
within each sub-batch the copied message pointers appear in their original
relative order; and for a batch with no DISCARDED element at entry each
sub-batch consists of exactly the elements of its ruleset, in original
order (so [A, B, A, B, A] yields the A sub-batch with 3 elements then the B
sub-batch with 2). -/
theorem multi_ruleset_pass_order (b : Batch α ρ) :
    ((processBatchMultiRuleset b).1.map batchGetRuleset
        = firstOccs (readyRulesets b.pElem))
    ∧ (∀ sb ∈ (processBatchMultiRuleset b).1,
        (sb.pElem.map (fun e => e.pUsrp)).Sublist (b.pElem.map (fun e => e.pUsrp)))
    ∧ ((∀ e ∈ b.pElem, isDisc e = false) →
        ∀ sb ∈ (processBatchMultiRuleset b).1,
          sb.pElem = b.pElem.filter (fun e => e.pRuleset == batchGetRuleset sb)) := by
  have hhead := multiLoopF_head_tag (countReady b.pElem + 1) b.pElem (Nat.lt_succ_self _)
  refine ⟨?_, ?_, ?_⟩
  · show (((multiLoop b.pElem).1.map
        (fun s => ({ pElem := s.2, bSingleRuleset := true } : Batch α ρ))).map
          batchGetRuleset) = _
    rw [List.map_map]
    have hcong : ∀ s ∈ (multiLoop b.pElem).1,
        (batchGetRuleset ∘ fun s =>
          ({ pElem := s.2, bSingleRuleset := true } : Batch α ρ)) s = Prod.fst s := by
      intro s hs
      rw [multiLoop] at hs
      rcases hhead s hs with ⟨f, t, hft, hfr⟩
      simp [Function.comp, batchGetRuleset, hft, hfr]
    rw [List.map_congr_left hcong, multiLoop]
    exact multiLoopF_tags _ b.pElem (Nat.lt_succ_self _)
  · intro sb hsb
    have hsb2 : ∃ c sub, (c, sub) ∈ (multiLoop b.pElem).1
        ∧ ({ pElem := sub, bSingleRuleset := true } : Batch α ρ) = sb := by
      simpa [processBatchMultiRuleset] using hsb
    rcases hsb2 with ⟨c, sub, hs, rfl⟩
    rw [multiLoop] at hs
    exact multiLoopF_suborder _ b.pElem (Nat.lt_succ_self _) (c, sub) hs
  · intro hall sb hsb
    have hsb2 : ∃ c sub, (c, sub) ∈ (multiLoop b.pElem).1
        ∧ ({ pElem := sub, bSingleRuleset := true } : Batch α ρ) = sb := by
      simpa [processBatchMultiRuleset] using hsb
    rcases hsb2 with ⟨c, sub, hs, rfl⟩
    rw [multiLoop] at hs
    have hD : ∀ e ∈ b.pElem, isDisc e = true ↔ e.pRuleset ∈ ([] : List (Option ρ)) := by
      intro e he
      rw [hall e he]
      simp
    have hcontent : sub = b.pElem.filter (fun e => e.pRuleset == c) :=
      multiLoopF_content _ b.pElem (Nat.lt_succ_self _) [] hD (c, sub) hs
    rcases hhead (c, sub) hs with ⟨f, t, hft, hfr⟩
    have hft2 : sub = f :: t := hft
    have hfr2 : f.pRuleset = c := hfr
    have hbg : batchGetRuleset ({ pElem := sub, bSingleRuleset := true } : Batch α ρ)
        = c := by
      simp [batchGetRuleset, hft2, hfr2]
    show sub = b.pElem.filter (fun e => e.pRuleset
        == batchGetRuleset ({ pElem := sub, bSingleRuleset := true } : Batch α ρ))
    rw [hbg]
    exact hcontent

theorem multi_ruleset_pass_order_wit :
    ((processBatchMultiRuleset exBatch).1.map batchGetRuleset = [some 0, some 1])
    ∧ (∃ sb, sb ∈ (processBatchMultiRuleset exBatch).1
        ∧ sb.pElem = exBatch.pElem.filter (fun e => e.pRuleset == batchGetRuleset sb)) := by
  have h := multi_ruleset_pass_order exBatch
  constructor
  · rw [h.1]
    decide
  · refine ⟨{ pElem := [⟨0, BState.rdy, some 0⟩, ⟨2, BState.rdy, some 0⟩,
        ⟨4, BState.rdy, some 0⟩], bSingleRuleset := true }, by decide, ?_⟩
    exact h.2.2 (by decide) _ (by decide)

/-- C10: when processBatchMultiRuleset returns, the original batch still
holds the same message pointer sequence and every one of its elements,
including those already DISCARDED at entry, is in state DISCARDED. -/
theorem multi_ruleset_all_discarded (b : Batch α ρ) :
    ((processBatchMultiRuleset b).2.pElem.map (fun e => e.pUsrp)
        = b.pElem.map (fun e => e.pUsrp))
    ∧ (∀ e ∈ (processBatchMultiRuleset b).2.pElem, e.state = BState.disc) := by
  constructor
  · show ((multiLoop b.pElem).2.map (fun e => e.pUsrp)) = _
    rw [multiLoop]
    exact multiLoopF_final_map_pUsrp _ b.pElem (Nat.lt_succ_self _)
  · show ∀ e ∈ (multiLoop b.pElem).2, e.state = BState.disc
    rw [multiLoop]
    exact multiLoopF_final_disc _ b.pElem (Nat.lt_succ_self _)

theorem multi_ruleset_all_discarded_wit :
    ((processBatchMultiRuleset cexBatch).2.pElem.map (fun e => e.pUsrp)
        = cexBatch.pElem.map (fun e => e.pUsrp))
    ∧ (⟨0, BState.disc, some 0⟩ : BElem Nat Nat).state = BState.disc := by
  constructor
  · exact (multi_ruleset_all_discarded cexBatch).1
  · exact (multi_ruleset_all_discarded cexBatch).2 ⟨0, BState.disc, some 0⟩ (by decide)

end ClaimBatch

section ClaimSingle

/-- C3: For every batch with bSingleRuleset set, processBatch fetches the
ruleset pointer of the batch, substitutes the default ruleset of the
registry when that pointer is null, and then hands the whole batch to each
rule of the chosen ruleset in insertion order: the trace is exactly the rule
list of that ruleset paired with the unmodified batch, in order. -/
theorem single_ruleset_fast_path {α ρ R : Type} [DecidableEq ρ] [DecidableEq α]
    (pDflt : Option ρ) (rulesOf : ρ → List R) (b : Batch α ρ)
    (hs : b.bSingleRuleset = true) :
    (∀ rs : ρ, batchGetRuleset b = some rs →
        processBatch pDflt rulesOf b = some ((rulesOf rs).map (fun r => (r, b))))
    ∧ (batchGetRuleset b = none → ∀ d : ρ, pDflt = some d →
        processBatch pDflt rulesOf b = some ((rulesOf d).map (fun r => (r, b)))) := by
  constructor
  · intro rs hrs
    rw [processBatch, if_pos hs, processBatchSinglePath, hrs]
  · intro hnone d hd
    rw [processBatch, if_pos hs, processBatchSinglePath, hnone, hd]

theorem single_ruleset_fast_path_wit :
    (processBatch (some 3) (fun r => [r, r + 1]) exSingleBatch
        = some [(7, exSingleBatch), (8, exSingleBatch)])
    ∧ (processBatch (some 3) (fun r => [r, r + 1]) exEmptyBatch
        = some [(3, exEmptyBatch), (4, exEmptyBatch)]) := by
  constructor
  · rw [(single_ruleset_fast_path (some 3) (fun r => [r, r + 1]) exSingleBatch rfl).1
      7 rfl]
    rfl
  · rw [(single_ruleset_fast_path (some 3) (fun r => [r, r + 1]) exEmptyBatch rfl).2
      rfl 3 rfl]
    rfl

end ClaimSingle

section ClaimRegistry

/-- The index returned by llFind points at an entry whose key matches the
searched name under strcasecmp. -/
theorem llFind_spec {A P Q : Type} :
    ∀ (l : List (String × RulesetData A P Q)) (name : String) (i : Nat),
      llFind l name = some i →
      ∃ kv, l[i]? = some kv ∧ strcaseEq kv.1 name = true := by
  intro l
  induction l with
  | nil =>
      intro name i h
      simp [llFind] at h
  | cons kv rest ih =>
      intro name i h
      rw [llFind] at h
      by_cases hk : strcaseEq kv.1 name = true
      · rw [if_pos hk] at h
        injection h with h0
        subst h0
        exact ⟨kv, by simp, hk⟩
      · rw [if_neg hk] at h
        rcases Option.map_eq_some'.mp h with ⟨j, hj, hji⟩
        subst hji
        rcases ih name j hj with ⟨kv2, hkv2, hs2⟩
        refine ⟨kv2, ?_, hs2⟩
        simpa using hkv2

theorem strcaseEq_iff (a b : String) :
    strcaseEq a b = true ↔ lowerName a = lowerName b := by
  simp [strcaseEq]

/-- With names unique up to case, llFind returns the index of the unique
matching entry. -/
theorem llFind_unique {A P Q : Type} :
    ∀ (l : List (String × RulesetData A P Q)) (name : String),
      (l.map (fun kv => lowerName kv.1)).Nodup →
      ∀ i, llFind l name = some i →
        ∀ j kv, l[j]? = some kv → strcaseEq kv.1 name = true → j = i := by
  intro l
  induction l with
  | nil =>
      intro name _ i h
      simp [llFind] at h
  | cons kv0 rest ih =>
      intro name hnd i h j kv hj hkv
      rw [List.map_cons, List.nodup_cons] at hnd
      rw [llFind] at h
      by_cases hk : strcaseEq kv0.1 name = true
      · rw [if_pos hk] at h
        injection h with h0
        subst h0
        cases j with
        | zero => rfl
        | succ j2 =>
            exfalso
            have hj2 : rest[j2]? = some kv := by simpa using hj
            have hmem : kv ∈ rest := List.getElem?_mem hj2
            apply hnd.1
            have h1 : lowerName kv0.1 = lowerName name := (strcaseEq_iff _ _).mp hk
            have h2 : lowerName kv.1 = lowerName name := (strcaseEq_iff _ _).mp hkv
            rw [h1, ← h2]
            exact List.mem_map_of_mem _ hmem
      · rw [if_neg hk] at h
        rcases Option.map_eq_some'.mp h with ⟨i2, hi2, hii⟩
        subst hii
        cases j with
        | zero =>
            exfalso
            have h0 : (kv0 :: rest)[0]? = some kv0 := by simp
            rw [h0] at hj
            injection hj with hj0
            rw [← hj0] at hkv
            exact hk hkv
        | succ j2 =>
            have hj2 : rest[j2]? = some kv := by simpa using hj
            have := ih name hnd.2 i2 hi2 j2 kv hj2 hkv
            omega

/-- C5: For a name absent from the registry, SetDefaultRuleset and
SetCurrRuleset return the lookup error and leave the whole registry state
untouched; for a present name, exactly the default (resp. current) pointer
is set to the index found by llFind, which matches the name case
insensitively and, when names are unique up to case, is the unique match. -/
theorem set_ruleset_name_lookup {A P Q : Type} (conf : RsConf A P Q) (pszName : String) :
    (rulesetGetRuleset conf pszName = none →
        SetDefaultRuleset conf pszName = (RsRet.notFound, conf)
        ∧ SetCurrRuleset conf pszName = (RsRet.notFound, conf))
    ∧ (∀ i, rulesetGetRuleset conf pszName = some i →
        SetDefaultRuleset conf pszName = (RsRet.ok, { conf with pDflt := some i })
        ∧ SetCurrRuleset conf pszName = (RsRet.ok, { conf with pCurr := some i })
        ∧ (∃ kv, conf.llRulesets[i]? = some kv ∧ strcaseEq kv.1 pszName = true)
        ∧ ((conf.llRulesets.map (fun kv => lowerName kv.1)).Nodup →
            ∀ j kv, conf.llRulesets[j]? = some kv →
              strcaseEq kv.1 pszName = true → j = i)) := by
  constructor
  · intro h
    constructor
    · rw [SetDefaultRuleset, h]
    · rw [SetCurrRuleset, h]
  · intro i h
    refine ⟨?_, ?_, ?_, ?_⟩
    · rw [SetDefaultRuleset, h]
    · rw [SetCurrRuleset, h]
    · exact llFind_spec conf.llRulesets pszName i h
    · intro hnd j kv hj hkv
      exact llFind_unique conf.llRulesets pszName hnd i h j kv hj hkv

theorem set_ruleset_name_lookup_wit :
    (SetDefaultRuleset exConfCurr "zzz" = (RsRet.notFound, exConfCurr))
    ∧ (SetCurrRuleset exConfCurr "zzz" = (RsRet.notFound, exConfCurr))
    ∧ (SetDefaultRuleset exConfCurr "RS1" = (RsRet.ok, { exConfCurr with pDflt := some 0 }))
    ∧ (SetCurrRuleset exConfCurr "RS1" = (RsRet.ok, { exConfCurr with pCurr := some 0 })) := by
  refine ⟨?_, ?_, ?_, ?_⟩
  · exact ((set_ruleset_name_lookup exConfCurr "zzz").1 (by decide)).1
  · exact ((set_ruleset_name_lookup exConfCurr "zzz").1 (by decide)).2
  · exact ((set_ruleset_name_lookup exConfCurr "RS1").2 0 (by decide)).1
  · exact ((set_ruleset_name_lookup exConfCurr "RS1").2 0 (by decide)).2.1

/-- C4: addRule warns about and drops a rule whose action list is empty,
leaving the ruleset unchanged; a rule with at least one action is appended
at the end of the rule list with no warning. -/
theorem add_rule_zero_actions {A P Q : Type} (pThis : RulesetData A P Q)
    (pRule : Rule A) :
    (pRule.llActList = [] → addRule pThis pRule = (pThis, true))
    ∧ (pRule.llActList ≠ [] →
        addRule pThis pRule
          = ({ pThis with llRules := pThis.llRules ++ [pRule] }, false)) := by
  constructor
  · intro h
    simp [addRule, h]
  · intro h
    have hlen : pRule.llActList.length ≠ 0 := by
      intro habs
      exact h (List.length_eq_zero.mp habs)
    simp [addRule, hlen]

theorem add_rule_zero_actions_wit :
    (addRule exRulesetData { llActList := ([] : List Nat) } = (exRulesetData, true))
    ∧ (addRule exRulesetData { llActList := [1] }
        = ({ exRulesetData with
              llRules := exRulesetData.llRules ++ [{ llActList := [1] }] }, false)) :=
  ⟨(add_rule_zero_actions exRulesetData _).1 rfl,
   (add_rule_zero_actions exRulesetData _).2 (by decide)⟩

/-- C8: rulesetConstructFinalize appends the ruleset under a copy of its
name at the end of the registry list, makes it the current ruleset, and
makes it the default iff no default was set before (so the default stays
the first finalized ruleset and is never overwritten). -/
theorem construct_finalize_spec {A P Q : Type} (conf : RsConf A P Q)
    (pThis : RulesetData A P Q) :
    ((rulesetConstructFinalize conf pThis).llRulesets
        = conf.llRulesets ++ [(pThis.pszName, pThis)])
    ∧ ((rulesetConstructFinalize conf pThis).pCurr = some conf.llRulesets.length)
    ∧ (conf.pDflt = none →
        (rulesetConstructFinalize conf pThis).pDflt = some conf.llRulesets.length)
    ∧ (∀ d, conf.pDflt = some d →
        (rulesetConstructFinalize conf pThis).pDflt = some d) := by
  refine ⟨rfl, rfl, ?_, ?_⟩
  · intro h
    simp [rulesetConstructFinalize, h]
  · intro d h
    simp [rulesetConstructFinalize, h]

theorem construct_finalize_spec_wit :
    ((rulesetConstructFinalize exConfNoCurr exRulesetWithQueue).pDflt = some 1)
    ∧ ((rulesetConstructFinalize exConfCurr exRulesetWithQueue).pDflt = some 0)
    ∧ ((rulesetConstructFinalize exConfNoCurr exRulesetWithQueue).pCurr = some 1) := by
  have h1 := construct_finalize_spec exConfNoCurr exRulesetWithQueue
  have h2 := construct_finalize_spec exConfCurr exRulesetWithQueue
  exact ⟨h1.2.2.1 rfl, h2.2.2.2 0 rfl, h1.2.1⟩

/-- C6: doRulesetCreateQueue fails with NO_CURR_RULESET when no current
ruleset is set and with RULES_QUEUE_EXISTS when the current ruleset already
owns a queue, in both cases leaving the registry (hence the queue field)
untouched; otherwise it does nothing when the directive value is off and
installs the new queue on the current ruleset exactly when the value is
on. -/
theorem ruleset_create_queue_spec {A P Q : Type} (conf : RsConf A P Q)
    (pNewVal : Int) (newQueue : Q) :
    (conf.pCurr = none →
        doRulesetCreateQueue conf pNewVal newQueue = (RsRet.noCurrRuleset, conf))
    ∧ (∀ i kv, conf.pCurr = some i → conf.llRulesets[i]? = some kv →
        (kv.2.pQueue.isSome = true →
            doRulesetCreateQueue conf pNewVal newQueue = (RsRet.rulesQueueExists, conf))
        ∧ (kv.2.pQueue = none → pNewVal = 0 →
            doRulesetCreateQueue conf pNewVal newQueue = (RsRet.ok, conf))
        ∧ (kv.2.pQueue = none → pNewVal ≠ 0 →
            doRulesetCreateQueue conf pNewVal newQueue
              = (RsRet.ok,
                 { conf with
                     llRulesets :=
                       conf.llRulesets.set i
                         (kv.1, { kv.2 with pQueue := some newQueue }) }))) := by
  constructor
  · intro h
    rw [doRulesetCreateQueue, h]
  · intro i kv hc hkv
    refine ⟨?_, ?_, ?_⟩
    · intro hq
      simp only [doRulesetCreateQueue, hc, hkv]
      rw [if_pos hq]
    · intro hq hv
      simp only [doRulesetCreateQueue, hc, hkv]
      rw [if_neg (by simp [hq]), if_pos hv]
    · intro hq hv
      simp only [doRulesetCreateQueue, hc, hkv]
      rw [if_neg (by simp [hq]), if_neg hv]

theorem ruleset_create_queue_spec_wit :
    (doRulesetCreateQueue exConfNoCurr 1 20 = (RsRet.noCurrRuleset, exConfNoCurr))
    ∧ (doRulesetCreateQueue exConfQueue 1 20 = (RsRet.rulesQueueExists, exConfQueue))
    ∧ (doRulesetCreateQueue exConfCurr 0 20 = (RsRet.ok, exConfCurr))
    ∧ (doRulesetCreateQueue exConfCurr 1 20
        = (RsRet.ok,
           { exConfCurr with
               llRulesets := exConfCurr.llRulesets.set 0
                 ("rs1", { exRulesetData with pQueue := some 20 }) })) := by
  refine ⟨?_, ?_, ?_, ?_⟩
  · exact (ruleset_create_queue_spec exConfNoCurr 1 20).1 rfl
  · exact ((ruleset_create_queue_spec exConfQueue 1 20).2 0
      ("rsq", exRulesetWithQueue) rfl rfl).1 rfl
  · exact ((ruleset_create_queue_spec exConfCurr 0 20).2 0
      ("rs1", exRulesetData) rfl rfl).2.1 rfl rfl
  · exact ((ruleset_create_queue_spec exConfCurr 1 20).2 0
      ("rs1", exRulesetData) rfl rfl).2.2 rfl (by decide)

/-- C7: on an unregistered parser name with a current ruleset set, the code
logs the PARSER_NOT_FOUND error (the logged code list) and leaves the
registry, hence the parser list of the current ruleset, unchanged, but the
value it returns is RS_RET_NO_CURR_RULESET (ruleset.c line 569), not the
PARSER_NOT_FOUND kind the spec names: the evaluation below exhibits the
divergence. -/
theorem add_parser_unknown_eval :
    doRulesetAddParser exConfCurr ([] : List Nat) 9
      = (RsRet.noCurrRuleset, exConfCurr, [RsRet.parserNotFound]) := by
  rfl

end ClaimRegistry

section ClaimImtcp

/-- C9: with no listener instance, checkCnf fails with the no-listeners
error and activation constructs no server (and aborts with NO_RUN); with at
least one instance, checkCnf passes and activation constructs a server and
finalizes it. -/
theorem imtcp_activation_spec {ρ : Type} (m : ModConf ρ) :
    (m.root = [] →
        checkCnf m = RsRet.noListeners
        ∧ activateCnfPrePrivDrop m none = (RsRet.noRun, none))
    ∧ (m.root ≠ [] →
        checkCnf m = RsRet.ok
        ∧ ∃ srv, activateCnfPrePrivDrop m none = (RsRet.ok, some srv)
            ∧ srv.finalized = true) := by
  constructor
  · intro h
    constructor
    · simp [checkCnf, h]
    · rw [activateCnfPrePrivDrop, h]
      rfl
  · intro h
    constructor
    · simp [checkCnf, List.isEmpty_iff, h]
    · cases hr : m.root with
      | nil => exact absurd hr h
      | cons inst rest =>
          rw [activateCnfPrePrivDrop, hr]
          have hsome : ∀ (l : List (InstanceConf ρ)) (s : TcpSrv ρ),
              ∃ t, l.foldl (fun s0 i0 => some (addListner s0 i0)) (some s) = some t := by
            intro l
            induction l with
            | nil =>
                intro s
                exact ⟨s, rfl⟩
            | cons i0 l ihl =>
                intro s
                simpa using ihl (addListner (some s) i0)
          rcases hsome rest (addListner none inst) with ⟨t, ht⟩
          rw [List.foldl_cons, ht]
          exact ⟨{ t with finalized := true }, rfl, rfl⟩

theorem imtcp_activation_spec_wit :
    (checkCnf exModConfEmpty = RsRet.noListeners)
    ∧ (activateCnfPrePrivDrop exModConfEmpty none = (RsRet.noRun, none))
    ∧ (∃ srv, activateCnfPrePrivDrop exModConf none = (RsRet.ok, some srv)
        ∧ srv.finalized = true) := by
  have h1 := (imtcp_activation_spec exModConfEmpty).1 rfl
  have h2 := (imtcp_activation_spec exModConf).2 (by decide)
  exact ⟨h1.1, h1.2, h2.2⟩

end ClaimImtcp

end RSyslog
